import Mathlib

/-!
Verification of the `fuji` notation library (`src/lib.rs`): a recursive-descent
parser (built from nom 5 combinators) for `name=value` bindings with
comma-separated value lists and brace-delimited blocks of nested bindings,
together with a canonical printer and a schema layer.

Strings are embedded as `List Char`.  The nom combinators used by the source
(`alphanumeric1`, `multispace0`, `multispace1`, `tag`, `opt`, `separated_list`,
`delimited`, `terminated`) are embedded directly; parse results mirror
`IResult<&str, T>` as `Option (List Char × T)` carrying `(remaining, value)`,
since every error produced here is a plain recoverable `nom::Err::Error`.
The mutually recursive parsers are defined with a fuel parameter; the public
wrappers supply fuel `input.length + 1`, which the fuel-bookkeeping in the
lemmas below shows is never exhausted.
-/

namespace Fuji

mutual
/-- The untyped tree's values, mirroring `struct Value { value: String, children: Vec<Binding> }`
from `src/lib.rs`. -/
inductive Value : Type where
  | mk : List Char → List Binding → Value
/-- The untyped tree's bindings, mirroring `struct Binding { name: String, values: Vec<Value> }`
from `src/lib.rs`. -/
inductive Binding : Type where
  | mk : List Char → List Value → Binding
end

/-- The `value` field of a `Value` (its token). -/
def Value.value : Value → List Char
  | ⟨v, _⟩ => v

/-- The `children` field of a `Value`. -/
def Value.children : Value → List Binding
  | ⟨_, ch⟩ => ch

/-- The `name` field of a `Binding`. -/
def Binding.name : Binding → List Char
  | ⟨n, _⟩ => n

/-- The `values` field of a `Binding`. -/
def Binding.values : Binding → List Value
  | ⟨_, vs⟩ => vs

/-- The characters recognized by nom's `multispace0`/`multispace1`:
space, tab, carriage return, line feed. -/
def isWsChar (c : Char) : Bool :=
  c = ' ' || c = '\t' || c = '\r' || c = '\n'

/-- The characters recognized by nom's `alphanumeric1`: ASCII letters and digits. -/
def isAlnumChar (c : Char) : Bool :=
  c.isAlphanum

/-- nom's `multispace0`: consume the maximal (possibly empty) whitespace prefix. -/
def multispace0 : List Char → List Char
  | [] => []
  | c :: cs => if isWsChar c then multispace0 cs else c :: cs

/-- nom's `multispace1`: consume a maximal whitespace prefix of length at least
one, failing when the input does not start with whitespace. -/
def multispace1 : List Char → Option (List Char)
  | [] => none
  | c :: cs => if isWsChar c then some (multispace0 cs) else none

/-- The maximal alphanumeric prefix of the input, paired with the rest. -/
def takeAlnum : List Char → List Char × List Char
  | [] => ([], [])
  | c :: cs =>
    if isAlnumChar c then
      ((c :: (takeAlnum cs).1), (takeAlnum cs).2)
    else
      ([], c :: cs)

/-- nom's `alphanumeric1`: the maximal nonempty alphanumeric prefix, as
`(remaining, token)`; fails when the input does not start with an
alphanumeric character. -/
def alphanumeric1 (s : List Char) : Option (List Char × List Char) :=
  match takeAlnum s with
  | ([], _) => none
  | (t, r) => some (r, t)

/-- `terminated(tag(","), multispace0)`, the value separator in `parse_binding`. -/
def commaSep : List Char → Option (List Char)
  | [] => none
  | c :: cs => if c = ',' then some (multispace0 cs) else none

mutual

/-- `parse_binding` from `src/lib.rs` (with fuel):
`terminated(alphanumeric1, tag("="))` followed by
`separated_list(terminated(tag(","), multispace0), parse_value)`.
nom 5's `separated_list` allows zero elements, and when an element fails
after a separator it returns the elements so far, leaving the separator
unconsumed. -/
def parseBindingF : Nat → List Char → Option (List Char × Binding)
  | 0, _ => none
  | n + 1, s =>
    match alphanumeric1 s with
    | none => none
    | some (s1, name) =>
      match s1 with
      | [] => none
      | c :: s2 =>
        if c = '=' then
          match parseValuesF n s2 with
          | none => none
          | some (r, vs) => some (r, ⟨name, vs⟩)
        else none

/-- `separated_list(terminated(tag(","), multispace0), parse_value)`:
the value list of a binding. A failed first element yields the empty list;
a failed element after a separator backtracks to before the separator. -/
def parseValuesF : Nat → List Char → Option (List Char × List Value)
  | 0, _ => none
  | n + 1, s =>
    match parseValueF n s with
    | none => some (s, [])
    | some (s1, v) =>
      match commaSep s1 with
      | none => some (s1, [v])
      | some s2 =>
        match parseValuesF n s2 with
        | none => none
        | some (s3, vs) =>
          if vs.isEmpty then some (s1, [v]) else some (s3, v :: vs)

/-- `parse_value` from `src/lib.rs` (with fuel):
`terminated(alphanumeric1, multispace0)` followed by
`opt(delimited(terminated(tag("{"), multispace0), separated_list(multispace1, parse_binding), terminated(tag("}"), multispace0)))`.
A failure anywhere inside the optional block (including a missing `}`)
makes `opt` yield `None`, backtracking to just after the token's trailing
whitespace. -/
def parseValueF : Nat → List Char → Option (List Char × Value)
  | 0, _ => none
  | n + 1, s =>
    match alphanumeric1 s with
    | none => none
    | some (s1, tok) =>
      match multispace0 s1 with
      | [] => some (multispace0 s1, ⟨tok, []⟩)
      | c :: s3 =>
        if c = '{' then
          match parseBindingsF n (multispace0 s3) with
          | none => none
          | some (s5, bs) =>
            match s5 with
            | [] => some (multispace0 s1, ⟨tok, []⟩)
            | c2 :: s6 =>
              if c2 = '}' then some (multispace0 s6, ⟨tok, bs⟩)
              else some (multispace0 s1, ⟨tok, []⟩)
        else some (multispace0 s1, ⟨tok, []⟩)

/-- `separated_list(multispace1, parse_binding)`: the sibling bindings of a
block, separated by one-or-more whitespace characters. -/
def parseBindingsF : Nat → List Char → Option (List Char × List Binding)
  | 0, _ => none
  | n + 1, s =>
    match parseBindingF n s with
    | none => some (s, [])
    | some (s1, b) =>
      match multispace1 s1 with
      | none => some (s1, [b])
      | some s2 =>
        match parseBindingsF n s2 with
        | none => none
        | some (s3, bs) =>
          if bs.isEmpty then some (s1, [b]) else some (s3, b :: bs)

end

/-- `parse_binding(input)`, as `Option (remaining, Binding)`. -/
def parse_binding (s : List Char) : Option (List Char × Binding) :=
  parseBindingF (s.length + 1) s

/-- `parse_value(input)`, as `Option (remaining, Value)`. -/
def parse_value (s : List Char) : Option (List Char × Value) :=
  parseValueF (s.length + 1) s

mutual

/-- `print_value` from `src/lib.rs`: the token, then—only when `children` is
nonempty—`{` + the space-joined children + `}`. -/
def print_value : Value → List Char
  | ⟨v, ch⟩ =>
    v ++ (match ch with
          | [] => []
          | b :: bs => '{' :: (printBindings (b :: bs) ++ ['}']))

/-- The `children.iter().map(print_binding).join(" ")` part of `print_value`. -/
def printBindings : List Binding → List Char
  | [] => []
  | [b] => print_binding b
  | b :: bs => print_binding b ++ ' ' :: printBindings bs

/-- `print_binding` from `src/lib.rs`: the name, `=`, and the comma-joined values. -/
def print_binding : Binding → List Char
  | ⟨name, vs⟩ => name ++ '=' :: printValues vs

/-- The `values.iter().map(print_value).join(",")` part of `print_binding`. -/
def printValues : List Value → List Char
  | [] => []
  | [v] => print_value v
  | v :: vs => print_value v ++ ',' :: printValues vs

end

/-- An Identifier in the sense of the grammar: a nonempty run of ASCII
letters/digits. -/
def identOkB (l : List Char) : Bool :=
  !l.isEmpty && l.all isAlnumChar

mutual

/-- Every token in the value (at every depth) is a valid Identifier. -/
def identsV : Value → Bool
  | ⟨t, ch⟩ => identOkB t && identsBs ch

/-- Every name/token in the bindings (at every depth) is a valid Identifier. -/
def identsBs : List Binding → Bool
  | [] => true
  | b :: bs => identsB b && identsBs bs

/-- Every name/token in the binding (at every depth) is a valid Identifier. -/
def identsB : Binding → Bool
  | ⟨name, vs⟩ => identOkB name && identsVs vs

/-- Every token in the values (at every depth) is a valid Identifier. -/
def identsVs : List Value → Bool
  | [] => true
  | v :: vs => identsV v && identsVs vs

end

mutual

/-- The structural invariant of trees produced by `parse_value`: in every
`children` list, every binding other than the last has an empty `values`
list (its trailing whitespace having been consumed, a binding with values
can never be followed by the `multispace1` sibling separator). -/
def shapeV : Value → Bool
  | ⟨_, ch⟩ => shapeBs ch

/-- `shapeV` for a `children` list: each binding satisfies `shapeB`, and
every binding other than the last has no values. -/
def shapeBs : List Binding → Bool
  | [] => true
  | b :: bs => shapeB b && (bs.isEmpty || b.values.isEmpty) && shapeBs bs

/-- The structural invariant of trees produced by `parse_binding`. -/
def shapeB : Binding → Bool
  | ⟨_, vs⟩ => shapeVs vs

/-- `shapeB` for a `values` list. -/
def shapeVs : List Value → Bool
  | [] => true
  | v :: vs => shapeV v && shapeVs vs

end

/-- The full invariant of bindings in the image of `parse_binding`. -/
def wfB (b : Binding) : Bool :=
  identsB b && shapeB b

/-- The full invariant of values in the image of `parse_value`. -/
def wfV (v : Value) : Bool :=
  identsV v && shapeV v

mutual

/-- Size of a value, for strong induction. -/
def sizeV : Value → Nat
  | ⟨_, ch⟩ => 1 + sizeBs ch

/-- Size of a binding list. -/
def sizeBs : List Binding → Nat
  | [] => 0
  | b :: bs => sizeB b + sizeBs bs

/-- Size of a binding. -/
def sizeB : Binding → Nat
  | ⟨_, vs⟩ => 1 + sizeVs vs

/-- Size of a value list. -/
def sizeVs : List Value → Nat
  | [] => 0
  | v :: vs => sizeV v + sizeVs vs

end

/-- `true` iff the list is empty or does not start with an ASCII-alphanumeric
character (so `alphanumeric1`, hence `parse_value`, fails on it). -/
def noAlnumHead : List Char → Bool
  | [] => true
  | c :: _ => !(isAlnumChar c)

/-- `true` iff the list is empty or does not start with whitespace. -/
def noWsHead : List Char → Bool
  | [] => true
  | c :: _ => !(isWsChar c)

/-- `true` iff the list is empty or starts with `}`. -/
def braceOrEnd : List Char → Bool
  | [] => true
  | c :: _ => c = '}'

/-- `true` iff the list is empty or starts with `,` or `}`: the characters
that may follow a printed value inside a well-formed printed tree. -/
def sepOrEnd : List Char → Bool
  | [] => true
  | c :: _ => c = ',' || c = '}'

/-! ### The schema layer

`src/lib.rs` declares the schema data model (`Schema`, `Field`, `Variant`) but
the decoder itself is not part of the source; it is modelled from the spec
below. -/

mutual

/-- `enum Schema` from `src/lib.rs`: `Struct { fields }`, `Enum { variants }`,
`String`, `Bool`. -/
inductive Schema : Type where
  | struct : List Field → Schema
  | enum : List Variant → Schema
  | string : Schema
  | bool : Schema

/-- `struct Field { name, repeated, schema }` from `src/lib.rs`. -/
inductive Field : Type where
  | mk : List Char → Bool → Schema → Field

/-- `struct Variant { name, schema }` from `src/lib.rs`. -/
inductive Variant : Type where
  | mk : List Char → Schema → Variant

end

/-- The `name` of a `Field`. -/
def Field.name : Field → List Char
  | ⟨n, _, _⟩ => n

/-- Modelled from the spec: the typed Value produced by decoding (the decoder
is absent from `src/`), mirroring Schema's shape: `Struct{fields}`,
`Enum{variant}`, `String(text)`, `Bool(flag)`, with
`FieldValue = {name, value}` and `VariantValue = {name, value}`. -/
inductive TValue : Type where
  | str : List Char → TValue
  | bool : Bool → TValue
  | struct : List (List Char × TValue) → TValue
  | enum : List Char → TValue → TValue

/-- Modelled from the spec: the DecodeError raised by the Schema-Directed
Decoder (absent from `src/`): unknown field name, unknown variant name,
arity mismatch, invalid boolean literal, type mismatch (leaf schema given a
node with an unexpected block). -/
inductive DecodeError : Type where
  | unknownField : List Char → DecodeError
  | unknownVariant : List Char → DecodeError
  | arityMismatch : List Char → DecodeError
  | invalidBool : List Char → DecodeError
  | leafWithBlock : DecodeError

/-- The first binding among `ch` whose name is not the name of any field in
`fields`, if any (the spec makes an unknown field name a decode error). -/
def firstUnknown (fields : List Field) (ch : List Binding) : Option (List Char) :=
  match ch with
  | [] => none
  | b :: rest =>
    if fields.any (fun f => f.name = b.name) then firstUnknown fields rest
    else some b.name

/-- All values carried by bindings in `ch` named `name`, in input order
(bindings sharing the name contribute their comma-separated values in order). -/
def collectValues (name : List Char) (ch : List Binding) : List Value :=
  match ch with
  | [] => []
  | b :: rest =>
    if b.name = name then b.values ++ collectValues name rest
    else collectValues name rest

mutual

/-- Modelled from the spec: `decode(Schema, Value) -> TValue or DecodeError`
(the decoder is absent from `src/`).  By Schema kind: `String` accepts the
token verbatim, strictly rejecting a nonempty block; `Bool` accepts the token
"true"/"false" only, any other token being a decode error (never silently
coerced to false), strictly rejecting a nonempty block; `Struct{fields}`
decodes the untyped value's children against the fields (unknown field names
are errors, a non-repeated field must be matched by exactly one value, a
repeated field accepts any count in input order); `Enum{variants}` requires
the token to equal one variant's name and decodes the children against that
variant's schema. -/
def decode : Schema → Value → Except DecodeError TValue
  | .string, ⟨t, ch⟩ =>
    if ch.isEmpty then .ok (.str t) else .error .leafWithBlock
  | .bool, ⟨t, ch⟩ =>
    if ch.isEmpty then
      if t = "true".toList then .ok (.bool true)
      else if t = "false".toList then .ok (.bool false)
      else .error (.invalidBool t)
    else .error .leafWithBlock
  | .struct fields, ⟨_, ch⟩ =>
    match firstUnknown fields ch with
    | some nm => .error (.unknownField nm)
    | none =>
      match decodeFields fields ch with
      | .error e => .error e
      | .ok fvs => .ok (.struct fvs)
  | .enum variants, ⟨t, ch⟩ => decodeEnum variants t ⟨t, ch⟩

/-- Modelled from the spec: decode each field of a Struct schema against the
children bindings, in field order; a repeated field collects all matching
values in input order, a non-repeated field requires exactly one. -/
def decodeFields : List Field → List Binding → Except DecodeError (List (List Char × TValue))
  | [], _ => .ok []
  | ⟨nm, repeated, sch⟩ :: fs, ch =>
    match collectValues nm ch with
    | vals =>
      if repeated then
        match decodeList sch vals with
        | .error e => .error e
        | .ok tvs =>
          match decodeFields fs ch with
          | .error e => .error e
          | .ok rest => .ok (tvs.map (fun tv => (nm, tv)) ++ rest)
      else
        match vals with
        | [v] =>
          match decode sch v with
          | .error e => .error e
          | .ok tv =>
            match decodeFields fs ch with
            | .error e => .error e
            | .ok rest => .ok ((nm, tv) :: rest)
        | _ => .error (.arityMismatch nm)

/-- Modelled from the spec: decode a list of untyped values against one
schema, in order, aborting at the first error. -/
def decodeList : Schema → List Value → Except DecodeError (List TValue)
  | _, [] => .ok []
  | sch, v :: vs =>
    match decode sch v with
    | .error e => .error e
    | .ok tv =>
      match decodeList sch vs with
      | .error e => .error e
      | .ok tvs => .ok (tv :: tvs)

/-- Modelled from the spec: find the variant whose name equals the token and
decode against its schema; no match is an unknown-variant error. -/
def decodeEnum : List Variant → List Char → Value → Except DecodeError TValue
  | [], t, _ => .error (.unknownVariant t)
  | ⟨nm, sch⟩ :: rest, t, v =>
    if nm = t then decode sch v else decodeEnum rest t v

end

/-! ### Lemmas about the tokenizer primitives -/

theorem multispace0_noWsHead (s : List Char) : noWsHead (multispace0 s) = true := by
  induction s with
  | nil => rfl
  | cons c cs ih =>
    simp only [multispace0]
    split
    · exact ih
    · rename_i h
      simp only [noWsHead, Bool.not_eq_true']
      exact Bool.not_eq_true _ ▸ (by simpa using h)

theorem multispace0_length (s : List Char) : (multispace0 s).length ≤ s.length := by
  induction s with
  | nil => exact Nat.le_refl _
  | cons c cs ih =>
    simp only [multispace0]
    split
    · exact Nat.le_trans ih (Nat.le_succ _)
    · exact Nat.le_refl _

theorem multispace0_of_noWsHead (s : List Char) (h : noWsHead s = true) :
    multispace0 s = s := by
  cases s with
  | nil => rfl
  | cons c cs =>
    simp only [noWsHead, Bool.not_eq_true'] at h
    simp [multispace0, h]

theorem takeAlnum_all (s : List Char) : (takeAlnum s).1.all isAlnumChar = true := by
  induction s with
  | nil => rfl
  | cons c cs ih =>
    simp only [takeAlnum]
    split
    · rename_i h
      simpa [List.all_cons, h] using ih
    · rfl

theorem takeAlnum_append_eq (s : List Char) : (takeAlnum s).1 ++ (takeAlnum s).2 = s := by
  induction s with
  | nil => rfl
  | cons c cs ih =>
    simp only [takeAlnum]
    split
    · simpa using ih
    · rfl

theorem takeAlnum_snd_noAlnum (s : List Char) : noAlnumHead (takeAlnum s).2 = true := by
  induction s with
  | nil => rfl
  | cons c cs ih =>
    simp only [takeAlnum]
    split
    · exact ih
    · rename_i h
      simp only [noAlnumHead, Bool.not_eq_true']
      simpa using h

theorem takeAlnum_of (t r : List Char) (ht : t.all isAlnumChar = true)
    (hr : noAlnumHead r = true) : takeAlnum (t ++ r) = (t, r) := by
  induction t with
  | nil =>
    cases r with
    | nil => rfl
    | cons c cs =>
      simp only [noAlnumHead, Bool.not_eq_true'] at hr
      simp [takeAlnum, hr]
  | cons c cs ih =>
    simp only [List.all_cons, Bool.and_eq_true] at ht
    simp [takeAlnum, ht.1, ih ht.2]

theorem alphanumeric1_of (t r : List Char) (ht : identOkB t = true)
    (hr : noAlnumHead r = true) : alphanumeric1 (t ++ r) = some (r, t) := by
  simp only [identOkB, Bool.and_eq_true] at ht
  obtain ⟨hne, hall⟩ := ht
  unfold alphanumeric1
  rw [takeAlnum_of t r hall hr]
  cases t with
  | nil => simp at hne
  | cons c cs => rfl

theorem alphanumeric1_none (s : List Char) (h : noAlnumHead s = true) :
    alphanumeric1 s = none := by
  cases s with
  | nil => rfl
  | cons c cs =>
    simp only [noAlnumHead, Bool.not_eq_true'] at h
    simp [alphanumeric1, takeAlnum, h]

theorem alphanumeric1_some (s r t : List Char) (h : alphanumeric1 s = some (r, t)) :
    identOkB t = true ∧ s = t ++ r ∧ noAlnumHead r = true ∧ r.length < s.length := by
  have hall := takeAlnum_all s
  have happ := takeAlnum_append_eq s
  have hsnd := takeAlnum_snd_noAlnum s
  rcases hq : takeAlnum s with ⟨t1, r1⟩
  rw [hq] at hall happ hsnd
  unfold alphanumeric1 at h
  rw [hq] at h
  cases t1 with
  | nil => exact absurd h (by simp)
  | cons c cs =>
    simp only at hall happ hsnd
    simp only [Option.some.injEq, Prod.mk.injEq] at h
    obtain ⟨hr, htt⟩ := h
    have hslen : s.length = cs.length + 1 + r1.length := by
      rw [← happ]
      simp [List.length_append]
      omega
    refine ⟨?_, ?_, ?_, ?_⟩
    · rw [← htt]
      simpa [identOkB] using hall
    · rw [← htt, ← hr]
      exact happ.symm
    · rw [← hr]
      exact hsnd
    · rw [← hr]
      omega

theorem identOkB_length (t : List Char) (h : identOkB t = true) : 1 ≤ t.length := by
  cases t with
  | nil => simp [identOkB] at h
  | cons c cs => simp

theorem multispace1_some (s r : List Char) (h : multispace1 s = some r) :
    noWsHead s = false ∧ r.length < s.length ∧ noWsHead r = true := by
  cases s with
  | nil => simp [multispace1] at h
  | cons c cs =>
    simp only [multispace1] at h
    split at h
    · rename_i hc
      obtain rfl : multispace0 cs = r := by injection h
      refine ⟨by simp [noWsHead, hc], ?_, multispace0_noWsHead cs⟩
      exact Nat.lt_succ_of_le (multispace0_length cs)
    · simp at h

theorem multispace1_none_of_noWs (s : List Char) (h : noWsHead s = true) :
    multispace1 s = none := by
  cases s with
  | nil => rfl
  | cons c cs =>
    simp only [noWsHead, Bool.not_eq_true'] at h
    simp [multispace1, h]

theorem commaSep_some (s r : List Char) (h : commaSep s = some r) :
    noWsHead s = true ∧ r.length < s.length ∧ noWsHead r = true := by
  cases s with
  | nil => simp [commaSep] at h
  | cons c cs =>
    simp only [commaSep] at h
    split at h
    · rename_i heq
      obtain ⟨rfl⟩ : c = ',' ∧ True := by
        cases heq
        exact ⟨rfl, trivial⟩
      obtain rfl : multispace0 cs = r := by injection h
      refine ⟨by simp [noWsHead, isWsChar], ?_, multispace0_noWsHead cs⟩
      exact Nat.lt_succ_of_le (multispace0_length cs)
    · simp at h

/-! ### Consumption: a successful parse consumes at least the token (value) or
the identifier and `=` (binding); the list parsers never lengthen the input. -/

theorem consume_all (n : Nat) :
    (∀ s r b, parseBindingF n s = some (r, b) → r.length + 2 ≤ s.length) ∧
    (∀ s r vs, parseValuesF n s = some (r, vs) → r.length ≤ s.length) ∧
    (∀ s r v, parseValueF n s = some (r, v) → r.length + 1 ≤ s.length) ∧
    (∀ s r bs, parseBindingsF n s = some (r, bs) → r.length ≤ s.length) := by
  induction n with
  | zero =>
    refine ⟨?_, ?_, ?_, ?_⟩ <;> intro s r x h <;>
      simp [parseBindingF, parseValuesF, parseValueF, parseBindingsF] at h
  | succ n ih =>
    obtain ⟨ihB, ihVs, ihV, ihBs⟩ := ih
    refine ⟨?_, ?_, ?_, ?_⟩
    · intro s r b h
      simp only [parseBindingF] at h
      cases ha : alphanumeric1 s with
      | none => rw [ha] at h; simp at h
      | some p =>
        obtain ⟨s1, name⟩ := p
        rw [ha] at h
        dsimp only [] at h
        cases s1 with
        | nil => simp at h
        | cons c s2 =>
          dsimp only [] at h
          by_cases hc : c = '='
          · rw [if_pos hc] at h
            cases hv : parseValuesF n s2 with
            | none => rw [hv] at h; simp at h
            | some q =>
              obtain ⟨r1, vs⟩ := q
              rw [hv] at h
              simp only [Option.some.injEq, Prod.mk.injEq] at h
              obtain ⟨rfl, rfl⟩ := h
              have hvs := ihVs s2 r1 vs hv
              obtain ⟨hid, hs, _, _⟩ := alphanumeric1_some s (c :: s2) name ha
              have hn := identOkB_length name hid
              have hl : s.length = name.length + (s2.length + 1) := by
                rw [hs, List.length_append]
                simp
              omega
          · rw [if_neg hc] at h
            simp at h
    · intro s r vs h
      simp only [parseValuesF] at h
      cases hv : parseValueF n s with
      | none =>
        rw [hv] at h
        simp only [Option.some.injEq, Prod.mk.injEq] at h
        obtain ⟨rfl, rfl⟩ := h
        exact Nat.le_refl _
      | some p =>
        obtain ⟨s1, v⟩ := p
        rw [hv] at h
        dsimp only [] at h
        have hv1 := ihV s s1 v hv
        cases hcs : commaSep s1 with
        | none =>
          rw [hcs] at h
          simp only [Option.some.injEq, Prod.mk.injEq] at h
          obtain ⟨rfl, rfl⟩ := h
          omega
        | some s2 =>
          rw [hcs] at h
          dsimp only [] at h
          obtain ⟨_, hc2, _⟩ := commaSep_some s1 s2 hcs
          cases hrec : parseValuesF n s2 with
          | none => rw [hrec] at h; simp at h
          | some q =>
            obtain ⟨s3, vs2⟩ := q
            rw [hrec] at h
            dsimp only [] at h
            have hrec1 := ihVs s2 s3 vs2 hrec
            by_cases he : vs2.isEmpty
            · rw [if_pos he] at h
              simp only [Option.some.injEq, Prod.mk.injEq] at h
              obtain ⟨rfl, rfl⟩ := h
              omega
            · rw [if_neg he] at h
              simp only [Option.some.injEq, Prod.mk.injEq] at h
              obtain ⟨rfl, rfl⟩ := h
              omega
    · intro s r v h
      simp only [parseValueF] at h
      cases ha : alphanumeric1 s with
      | none => rw [ha] at h; simp at h
      | some p =>
        obtain ⟨s1, tok⟩ := p
        rw [ha] at h
        dsimp only [] at h
        obtain ⟨hid, hs, _, _⟩ := alphanumeric1_some s s1 tok ha
        have htok := identOkB_length tok hid
        have hslen : s.length = tok.length + s1.length := by
          rw [hs, List.length_append]
        have hm0 : (multispace0 s1).length ≤ s1.length := multispace0_length s1
        cases hm : multispace0 s1 with
        | nil =>
          rw [hm] at h
          simp only [Option.some.injEq, Prod.mk.injEq] at h
          obtain ⟨rfl, rfl⟩ := h
          simp
          omega
        | cons c s3 =>
          rw [hm] at h
          dsimp only [] at h
          have hm1 : s3.length + 1 ≤ s1.length := by
            have := congrArg List.length hm
            simp at this
            omega
          by_cases hc : c = '{'
          · rw [if_pos hc] at h
            cases hbs : parseBindingsF n (multispace0 s3) with
            | none => rw [hbs] at h; simp at h
            | some q =>
              obtain ⟨s5, bs⟩ := q
              rw [hbs] at h
              dsimp only [] at h
              have hbs1 := ihBs (multispace0 s3) s5 bs hbs
              have hm3 : (multispace0 s3).length ≤ s3.length := multispace0_length s3
              cases s5 with
              | nil =>
                simp only [Option.some.injEq, Prod.mk.injEq] at h
                obtain ⟨rfl, rfl⟩ := h
                simp
                omega
              | cons c2 s6 =>
                dsimp only [] at h
                by_cases hc2 : c2 = '}'
                · rw [if_pos hc2] at h
                  simp only [Option.some.injEq, Prod.mk.injEq] at h
                  obtain ⟨rfl, rfl⟩ := h
                  have := multispace0_length s6
                  simp at hbs1
                  omega
                · rw [if_neg hc2] at h
                  simp only [Option.some.injEq, Prod.mk.injEq] at h
                  obtain ⟨rfl, rfl⟩ := h
                  simp
                  omega
          · rw [if_neg hc] at h
            simp only [Option.some.injEq, Prod.mk.injEq] at h
            obtain ⟨rfl, rfl⟩ := h
            simp
            omega
    · intro s r bs h
      simp only [parseBindingsF] at h
      cases hb : parseBindingF n s with
      | none =>
        rw [hb] at h
        simp only [Option.some.injEq, Prod.mk.injEq] at h
        obtain ⟨rfl, rfl⟩ := h
        exact Nat.le_refl _
      | some p =>
        obtain ⟨s1, b⟩ := p
        rw [hb] at h
        dsimp only [] at h
        have hb1 := ihB s s1 b hb
        cases hw : multispace1 s1 with
        | none =>
          rw [hw] at h
          simp only [Option.some.injEq, Prod.mk.injEq] at h
          obtain ⟨rfl, rfl⟩ := h
          omega
        | some s2 =>
          rw [hw] at h
          dsimp only [] at h
          obtain ⟨_, hw2, _⟩ := multispace1_some s1 s2 hw
          cases hrec : parseBindingsF n s2 with
          | none => rw [hrec] at h; simp at h
          | some q =>
            obtain ⟨s3, bs2⟩ := q
            rw [hrec] at h
            dsimp only [] at h
            have hrec1 := ihBs s2 s3 bs2 hrec
            by_cases he : bs2.isEmpty
            · rw [if_pos he] at h
              simp only [Option.some.injEq, Prod.mk.injEq] at h
              obtain ⟨rfl, rfl⟩ := h
              omega
            · rw [if_neg he] at h
              simp only [Option.some.injEq, Prod.mk.injEq] at h
              obtain ⟨rfl, rfl⟩ := h
              omega

/-- With fuel at least `length + 2`, the value-list parser cannot fail: a
failed first element yields the empty list and a failed element after a
separator yields the elements so far, exactly as nom's `separated_list`. -/
theorem parseValuesF_ne_none (n : Nat) :
    ∀ s : List Char, s.length + 2 ≤ n → parseValuesF n s ≠ none := by
  induction n with
  | zero => intro s h; omega
  | succ n ih =>
    intro s h
    simp only [parseValuesF]
    cases hv : parseValueF n s with
    | none => simp
    | some p =>
      obtain ⟨s1, v⟩ := p
      dsimp only []
      have hv1 := (consume_all n).2.2.1 s s1 v hv
      cases hcs : commaSep s1 with
      | none => simp
      | some s2 =>
        dsimp only []
        obtain ⟨_, hc2, _⟩ := commaSep_some s1 s2 hcs
        cases hrec : parseValuesF n s2 with
        | none => exact absurd hrec (ih s2 (by omega))
        | some q =>
          obtain ⟨s3, vs⟩ := q
          dsimp only []
          split <;> simp

/-- Every tree produced by the parsers is well formed: all names and tokens
are valid Identifiers, in every children list only the last binding can have
a nonempty values list, and (the key step for the latter) whenever a parsed
binding has a nonempty values list its remaining input cannot start with
whitespace, the last value's trailing `multispace0` having consumed it. -/
theorem image_wf (n : Nat) :
    (∀ s r b, parseBindingF n s = some (r, b) →
      identsB b = true ∧ shapeB b = true ∧ (b.values ≠ [] → noWsHead r = true)) ∧
    (∀ s r vs, parseValuesF n s = some (r, vs) →
      identsVs vs = true ∧ shapeVs vs = true ∧ (vs ≠ [] → noWsHead r = true)) ∧
    (∀ s r v, parseValueF n s = some (r, v) →
      identsV v = true ∧ shapeV v = true ∧ noWsHead r = true) ∧
    (∀ s r bs, parseBindingsF n s = some (r, bs) →
      identsBs bs = true ∧ shapeBs bs = true) := by
  induction n with
  | zero =>
    refine ⟨?_, ?_, ?_, ?_⟩ <;> intro s r x h <;>
      simp [parseBindingF, parseValuesF, parseValueF, parseBindingsF] at h
  | succ n ih =>
    obtain ⟨ihB, ihVs, ihV, ihBs⟩ := ih
    refine ⟨?_, ?_, ?_, ?_⟩
    · intro s r b h
      simp only [parseBindingF] at h
      cases ha : alphanumeric1 s with
      | none => rw [ha] at h; simp at h
      | some p =>
        obtain ⟨s1, name⟩ := p
        rw [ha] at h
        dsimp only [] at h
        cases s1 with
        | nil => simp at h
        | cons c s2 =>
          dsimp only [] at h
          by_cases hc : c = '='
          · rw [if_pos hc] at h
            cases hv : parseValuesF n s2 with
            | none => rw [hv] at h; simp at h
            | some q =>
              obtain ⟨r1, vs⟩ := q
              rw [hv] at h
              simp only [Option.some.injEq, Prod.mk.injEq] at h
              obtain ⟨rfl, rfl⟩ := h
              obtain ⟨hi, hsh, hws⟩ := ihVs s2 r1 vs hv
              obtain ⟨hid, _, _, _⟩ := alphanumeric1_some s (c :: s2) name ha
              refine ⟨by simp [identsB, hid, hi], by simp [shapeB, hsh], ?_⟩
              simpa [Binding.values] using hws
          · rw [if_neg hc] at h
            simp at h
    · intro s r vs h
      simp only [parseValuesF] at h
      cases hv : parseValueF n s with
      | none =>
        rw [hv] at h
        simp only [Option.some.injEq, Prod.mk.injEq] at h
        obtain ⟨rfl, rfl⟩ := h
        simp [identsVs, shapeVs]
      | some p =>
        obtain ⟨s1, v⟩ := p
        rw [hv] at h
        dsimp only [] at h
        obtain ⟨hiv, hsv, hwv⟩ := ihV s s1 v hv
        cases hcs : commaSep s1 with
        | none =>
          rw [hcs] at h
          simp only [Option.some.injEq, Prod.mk.injEq] at h
          obtain ⟨rfl, rfl⟩ := h
          exact ⟨by simp [identsVs, hiv], by simp [shapeVs, hsv], fun _ => hwv⟩
        | some s2 =>
          rw [hcs] at h
          dsimp only [] at h
          cases hrec : parseValuesF n s2 with
          | none => rw [hrec] at h; simp at h
          | some q =>
            obtain ⟨s3, vs2⟩ := q
            rw [hrec] at h
            dsimp only [] at h
            obtain ⟨hi2, hs2, hw2⟩ := ihVs s2 s3 vs2 hrec
            by_cases he : vs2.isEmpty
            · rw [if_pos he] at h
              simp only [Option.some.injEq, Prod.mk.injEq] at h
              obtain ⟨rfl, rfl⟩ := h
              exact ⟨by simp [identsVs, hiv], by simp [shapeVs, hsv], fun _ => hwv⟩
            · rw [if_neg he] at h
              simp only [Option.some.injEq, Prod.mk.injEq] at h
              obtain ⟨rfl, rfl⟩ := h
              have hne : vs2 ≠ [] := by
                cases vs2 with
                | nil => simp at he
                | cons a as => simp
              refine ⟨by simp [identsVs, hiv, hi2], by simp [shapeVs, hsv, hs2], ?_⟩
              intro _
              exact hw2 hne
    · intro s r v h
      simp only [parseValueF] at h
      cases ha : alphanumeric1 s with
      | none => rw [ha] at h; simp at h
      | some p =>
        obtain ⟨s1, tok⟩ := p
        rw [ha] at h
        dsimp only [] at h
        obtain ⟨hid, _, _, _⟩ := alphanumeric1_some s s1 tok ha
        have hw1 : noWsHead (multispace0 s1) = true := multispace0_noWsHead s1
        cases hm : multispace0 s1 with
        | nil =>
          rw [hm] at h
          simp only [Option.some.injEq, Prod.mk.injEq] at h
          obtain ⟨rfl, rfl⟩ := h
          exact ⟨by simp [identsV, identsBs, hid], by simp [shapeV, shapeBs], by simp [noWsHead]⟩
        | cons c s3 =>
          rw [hm] at h
          dsimp only [] at h
          have hwc : noWsHead (c :: s3) = true := hm ▸ hw1
          by_cases hc : c = '{'
          · rw [if_pos hc] at h
            cases hbs : parseBindingsF n (multispace0 s3) with
            | none => rw [hbs] at h; simp at h
            | some q =>
              obtain ⟨s5, bs⟩ := q
              rw [hbs] at h
              dsimp only [] at h
              obtain ⟨hibs, hsbs⟩ := ihBs (multispace0 s3) s5 bs hbs
              cases s5 with
              | nil =>
                simp only [Option.some.injEq, Prod.mk.injEq] at h
                obtain ⟨rfl, rfl⟩ := h
                exact ⟨by simp [identsV, identsBs, hid], by simp [shapeV, shapeBs], hwc⟩
              | cons c2 s6 =>
                dsimp only [] at h
                by_cases hc2 : c2 = '}'
                · rw [if_pos hc2] at h
                  simp only [Option.some.injEq, Prod.mk.injEq] at h
                  obtain ⟨rfl, rfl⟩ := h
                  exact ⟨by simp [identsV, hid, hibs], by simp [shapeV, hsbs],
                    multispace0_noWsHead s6⟩
                · rw [if_neg hc2] at h
                  simp only [Option.some.injEq, Prod.mk.injEq] at h
                  obtain ⟨rfl, rfl⟩ := h
                  exact ⟨by simp [identsV, identsBs, hid], by simp [shapeV, shapeBs], hwc⟩
          · rw [if_neg hc] at h
            simp only [Option.some.injEq, Prod.mk.injEq] at h
            obtain ⟨rfl, rfl⟩ := h
            exact ⟨by simp [identsV, identsBs, hid], by simp [shapeV, shapeBs], hwc⟩
    · intro s r bs h
      simp only [parseBindingsF] at h
      cases hb : parseBindingF n s with
      | none =>
        rw [hb] at h
        simp only [Option.some.injEq, Prod.mk.injEq] at h
        obtain ⟨rfl, rfl⟩ := h
        simp [identsBs, shapeBs]
      | some p =>
        obtain ⟨s1, b⟩ := p
        rw [hb] at h
        dsimp only [] at h
        obtain ⟨hib, hsb, hwb⟩ := ihB s s1 b hb
        cases hw : multispace1 s1 with
        | none =>
          rw [hw] at h
          simp only [Option.some.injEq, Prod.mk.injEq] at h
          obtain ⟨rfl, rfl⟩ := h
          exact ⟨by simp [identsBs, hib], by simp [shapeBs, hsb]⟩
        | some s2 =>
          rw [hw] at h
          dsimp only [] at h
          cases hrec : parseBindingsF n s2 with
          | none => rw [hrec] at h; simp at h
          | some q =>
            obtain ⟨s3, bs2⟩ := q
            rw [hrec] at h
            dsimp only [] at h
            obtain ⟨hi2, hs2⟩ := ihBs s2 s3 bs2 hrec
            by_cases he : bs2.isEmpty
            · rw [if_pos he] at h
              simp only [Option.some.injEq, Prod.mk.injEq] at h
              obtain ⟨rfl, rfl⟩ := h
              exact ⟨by simp [identsBs, hib], by simp [shapeBs, hsb]⟩
            · rw [if_neg he] at h
              simp only [Option.some.injEq, Prod.mk.injEq] at h
              obtain ⟨rfl, rfl⟩ := h
              have hvals : b.values = [] := by
                by_contra hne
                have := hwb hne
                obtain ⟨hws, _, _⟩ := multispace1_some s1 s2 hw
                rw [this] at hws
                exact absurd hws (by simp)
              refine ⟨by simp [identsBs, hib, hi2], ?_⟩
              simp [shapeBs, hsb, hs2, hvals]

/-! ### Boundary-character lemmas used by the round-trip proof -/

theorem alnum_not_ws (c : Char) (h : isAlnumChar c = true) : isWsChar c = false := by
  by_contra hne
  have hw : isWsChar c = true := by simpa using hne
  simp only [isWsChar, Bool.or_eq_true, decide_eq_true_eq] at hw
  rcases hw with (((rfl | rfl) | rfl) | rfl) <;> exact absurd h (by decide)

theorem sepOrEnd_noAlnum (s : List Char) (h : sepOrEnd s = true) :
    noAlnumHead s = true := by
  cases s with
  | nil => rfl
  | cons c cs =>
    simp only [sepOrEnd, Bool.or_eq_true, decide_eq_true_eq] at h
    rcases h with rfl | rfl <;> rfl

theorem sepOrEnd_noWs (s : List Char) (h : sepOrEnd s = true) :
    noWsHead s = true := by
  cases s with
  | nil => rfl
  | cons c cs =>
    simp only [sepOrEnd, Bool.or_eq_true, decide_eq_true_eq] at h
    rcases h with rfl | rfl <;> rfl

theorem braceOrEnd_sepOrEnd (s : List Char) (h : braceOrEnd s = true) :
    sepOrEnd s = true := by
  cases s with
  | nil => rfl
  | cons c cs =>
    simp only [braceOrEnd, decide_eq_true_eq] at h
    subst h
    rfl

theorem commaSep_none_of_braceOrEnd (s : List Char) (h : braceOrEnd s = true) :
    commaSep s = none := by
  cases s with
  | nil => rfl
  | cons c cs =>
    simp only [braceOrEnd, decide_eq_true_eq] at h
    subst h
    rfl

theorem parseValueF_none (n : Nat) (s : List Char) (h : noAlnumHead s = true) :
    parseValueF n s = none := by
  cases n with
  | zero => rfl
  | succ n =>
    simp only [parseValueF]
    rw [alphanumeric1_none s ?_]
    cases s with
    | nil => exact rfl
    | cons c cs => exact h

theorem identOkB_head_alnum (c : Char) (t : List Char) (h : identOkB (c :: t) = true) :
    isAlnumChar c = true := by
  simp only [identOkB, Bool.and_eq_true, List.all_cons] at h
  exact h.2.1

theorem noWsHead_append_print_binding (b : Binding) (x : List Char)
    (h : identsB b = true) : noWsHead (print_binding b ++ x) = true := by
  obtain ⟨name, vs⟩ := b
  simp only [identsB, Bool.and_eq_true] at h
  cases name with
  | nil => simp [identOkB] at h
  | cons c t =>
    have hc := identOkB_head_alnum c t h.1
    simp only [print_binding, List.cons_append, List.append_assoc]
    simp only [noWsHead]
    rw [alnum_not_ws c hc]
    rfl

theorem printBindings_cons_decomp (b : Binding) (bs : List Binding) :
    ∃ y, printBindings (b :: bs) = print_binding b ++ y := by
  cases bs with
  | nil => exact ⟨[], by simp [printBindings]⟩
  | cons b2 bs2 => exact ⟨' ' :: printBindings (b2 :: bs2), by simp [printBindings]⟩

theorem noWsHead_append_printBindings (b : Binding) (bs : List Binding) (x : List Char)
    (h : identsB b = true) : noWsHead (printBindings (b :: bs) ++ x) = true := by
  obtain ⟨y, hy⟩ := printBindings_cons_decomp b bs
  rw [hy, List.append_assoc]
  exact noWsHead_append_print_binding b (y ++ x) h

theorem noWsHead_append_print_value (v : Value) (x : List Char)
    (h : identsV v = true) : noWsHead (print_value v ++ x) = true := by
  obtain ⟨tok, ch⟩ := v
  simp only [identsV, Bool.and_eq_true] at h
  cases tok with
  | nil => simp [identOkB] at h
  | cons c t =>
    have hc := identOkB_head_alnum c t h.1
    simp only [print_value, List.cons_append, List.append_assoc]
    simp only [noWsHead]
    rw [alnum_not_ws c hc]
    rfl

theorem printValues_cons_decomp (v : Value) (vs : List Value) :
    ∃ y, printValues (v :: vs) = print_value v ++ y := by
  cases vs with
  | nil => exact ⟨[], by simp [printValues]⟩
  | cons v2 vs2 => exact ⟨',' :: printValues (v2 :: vs2), by simp [printValues]⟩

theorem noWsHead_append_printValues (v : Value) (vs : List Value) (x : List Char)
    (h : identsV v = true) : noWsHead (printValues (v :: vs) ++ x) = true := by
  obtain ⟨y, hy⟩ := printValues_cons_decomp v vs
  rw [hy, List.append_assoc]
  exact noWsHead_append_print_value v (y ++ x) h

theorem print_value_length (v : Value) (h : identsV v = true) :
    1 ≤ (print_value v).length := by
  obtain ⟨tok, ch⟩ := v
  simp only [identsV, Bool.and_eq_true] at h
  have := identOkB_length tok h.1
  cases ch with
  | nil =>
    simp only [print_value, List.length_append]
    omega
  | cons b bs =>
    simp only [print_value, List.length_append]
    omega

theorem print_binding_length (b : Binding) (h : identsB b = true) :
    2 ≤ (print_binding b).length := by
  obtain ⟨name, vs⟩ := b
  simp only [identsB, Bool.and_eq_true] at h
  have := identOkB_length name h.1
  simp only [print_binding, List.length_append, List.length_cons]
  omega

theorem sizeV_pos (v : Value) : 1 ≤ sizeV v := by
  obtain ⟨tok, ch⟩ := v
  simp [sizeV]

theorem sizeB_pos (b : Binding) : 1 ≤ sizeB b := by
  obtain ⟨name, vs⟩ := b
  simp [sizeB]

/-- Printing then parsing is the identity, for well-formed trees satisfying
the parser-image invariant, with any boundary text following the printed
form, and with any sufficient fuel.  The four conjuncts treat bindings,
nonempty block contents (up to the closing `}`), values, and value lists. -/
theorem print_parse (k : Nat) :
    (∀ b rest n, sizeB b ≤ k → wfB b = true →
      (b.values = [] → noAlnumHead rest = true) →
      (b.values ≠ [] → braceOrEnd rest = true) →
      (print_binding b ++ rest).length + 1 ≤ n →
      parseBindingF n (print_binding b ++ rest) = some (rest, b)) ∧
    (∀ bs rest n, sizeBs bs ≤ k → bs ≠ [] → identsBs bs = true → shapeBs bs = true →
      (printBindings bs ++ '}' :: rest).length + 2 ≤ n →
      parseBindingsF n (printBindings bs ++ '}' :: rest) = some ('}' :: rest, bs)) ∧
    (∀ v rest n, sizeV v ≤ k → wfV v = true → sepOrEnd rest = true →
      (print_value v ++ rest).length + 1 ≤ n →
      parseValueF n (print_value v ++ rest) = some (rest, v)) ∧
    (∀ vs rest n, sizeVs vs ≤ k → identsVs vs = true → shapeVs vs = true →
      (vs = [] → noAlnumHead rest = true) →
      (vs ≠ [] → braceOrEnd rest = true) →
      (printValues vs ++ rest).length + 2 ≤ n →
      parseValuesF n (printValues vs ++ rest) = some (rest, vs)) := by
  induction k using Nat.strong_induction_on with
  | _ k ih =>
  have HB : ∀ b rest n, sizeB b ≤ k → wfB b = true →
      (b.values = [] → noAlnumHead rest = true) →
      (b.values ≠ [] → braceOrEnd rest = true) →
      (print_binding b ++ rest).length + 1 ≤ n →
      parseBindingF n (print_binding b ++ rest) = some (rest, b) := by
    intro b rest n hsz hwf h1 h2 hn
    obtain ⟨name, vs⟩ := b
    simp only [wfB, Bool.and_eq_true] at hwf
    obtain ⟨hib, hsb⟩ := hwf
    simp only [identsB, Bool.and_eq_true] at hib
    obtain ⟨hname, hivs⟩ := hib
    simp only [shapeB] at hsb
    have hszk : sizeB (Binding.mk name vs) = 1 + sizeVs vs := by simp [sizeB]
    have hnl := identOkB_length name hname
    have hpb : print_binding ⟨name, vs⟩ ++ rest = name ++ '=' :: (printValues vs ++ rest) := by
      simp [print_binding]
    rw [hpb] at hn ⊢
    have hlen : (name ++ '=' :: (printValues vs ++ rest)).length
        = name.length + 1 + (printValues vs ++ rest).length := by
      simp only [List.length_append, List.length_cons]
      omega
    cases n with
    | zero => omega
    | succ m =>
      simp only [parseBindingF]
      rw [alphanumeric1_of name ('=' :: (printValues vs ++ rest)) hname rfl]
      dsimp only []
      rw [if_pos rfl]
      have hrec := (ih (sizeVs vs) (by omega)).2.2.2 vs rest m (Nat.le_refl _) hivs hsb
        (fun hv => h1 hv) (fun hv => h2 hv) (by omega)
      rw [hrec]
  have HBs : ∀ bs rest n, sizeBs bs ≤ k → bs ≠ [] → identsBs bs = true → shapeBs bs = true →
      (printBindings bs ++ '}' :: rest).length + 2 ≤ n →
      parseBindingsF n (printBindings bs ++ '}' :: rest) = some ('}' :: rest, bs) := by
    intro bs rest n hsz hne hi hs hn
    cases bs with
    | nil => exact absurd rfl hne
    | cons b bs2 =>
      simp only [identsBs, Bool.and_eq_true] at hi
      obtain ⟨hib, hibs2⟩ := hi
      simp only [shapeBs, Bool.and_eq_true] at hs
      obtain ⟨⟨hsb, hbe⟩, hsbs2⟩ := hs
      have hwfb : wfB b = true := by simp [wfB, hib, hsb]
      cases n with
      | zero =>
        exact absurd hn (by omega)
      | succ m =>
        cases bs2 with
        | nil =>
          have hpb : printBindings [b] ++ '}' :: rest = print_binding b ++ '}' :: rest := by
            simp [printBindings]
          rw [hpb] at hn ⊢
          have hszb : sizeB b ≤ k := by
            have : sizeBs [b] = sizeB b := by simp [sizeBs]
            omega
          simp only [parseBindingsF]
          have hb := HB b ('}' :: rest) m hszb hwfb (fun _ => rfl) (fun _ => rfl) (by omega)
          rw [hb]
          dsimp only []
          rw [multispace1_none_of_noWs ('}' :: rest) rfl]
        | cons b2 bs3 =>
          have hvals : b.values = [] := by
            simp only [List.isEmpty_cons, Bool.false_or] at hbe
            cases hv : b.values with
            | nil => rfl
            | cons x xs => rw [hv] at hbe; simp at hbe
          have hpb : printBindings (b :: b2 :: bs3) ++ '}' :: rest
              = print_binding b ++ ' ' :: (printBindings (b2 :: bs3) ++ '}' :: rest) := by
            simp [printBindings]
          rw [hpb] at hn ⊢
          simp only [identsBs, Bool.and_eq_true] at hibs2
          have hib2 := hibs2.1
          have hszs : sizeB b ≤ k ∧ sizeBs (b2 :: bs3) < k := by
            have e1 : sizeBs (b :: b2 :: bs3) = sizeB b + sizeBs (b2 :: bs3) := by
              simp [sizeBs]
            have e2 : sizeBs (b2 :: bs3) = sizeB b2 + sizeBs bs3 := by simp [sizeBs]
            have p1 := sizeB_pos b
            have p2 := sizeB_pos b2
            omega
          have hpbl := print_binding_length b hib
          have hlen : (print_binding b ++ ' ' :: (printBindings (b2 :: bs3) ++ '}' :: rest)).length
              = (print_binding b).length + 1 + (printBindings (b2 :: bs3) ++ '}' :: rest).length := by
            simp only [List.length_append, List.length_cons]
            omega
          simp only [parseBindingsF]
          have hb := HB b (' ' :: (printBindings (b2 :: bs3) ++ '}' :: rest)) m hszs.1 hwfb
            (fun _ => rfl) (fun hv => absurd hvals hv) (by omega)
          rw [hb]
          dsimp only []
          have hX : noWsHead (printBindings (b2 :: bs3) ++ '}' :: rest) = true :=
            noWsHead_append_printBindings b2 bs3 ('}' :: rest) hib2
          have hms : multispace1 (' ' :: (printBindings (b2 :: bs3) ++ '}' :: rest))
              = some (printBindings (b2 :: bs3) ++ '}' :: rest) := by
            simp only [multispace1]
            rw [if_pos (show isWsChar ' ' = true from rfl),
              multispace0_of_noWsHead _ hX]
          rw [hms]
          dsimp only []
          have hrec := (ih (sizeBs (b2 :: bs3)) hszs.2).2.1 (b2 :: bs3) rest m
            (Nat.le_refl _) (by simp) (by simp [identsBs, hibs2.1, hibs2.2]) hsbs2 (by omega)
          rw [hrec]
          dsimp only []
          rw [if_neg (show ¬((b2 :: bs3).isEmpty = true) by simp)]
  have HV : ∀ v rest n, sizeV v ≤ k → wfV v = true → sepOrEnd rest = true →
      (print_value v ++ rest).length + 1 ≤ n →
      parseValueF n (print_value v ++ rest) = some (rest, v) := by
    intro v rest n hsz hwf hre hn
    obtain ⟨tok, ch⟩ := v
    simp only [wfV, Bool.and_eq_true] at hwf
    obtain ⟨hiv, hsv⟩ := hwf
    simp only [identsV, Bool.and_eq_true] at hiv
    obtain ⟨htok, hich⟩ := hiv
    simp only [shapeV] at hsv
    have hreNoWs := sepOrEnd_noWs rest hre
    have hreNoAl := sepOrEnd_noAlnum rest hre
    cases n with
    | zero => exact absurd hn (by omega)
    | succ m =>
      cases ch with
      | nil =>
        have hpv : print_value ⟨tok, []⟩ ++ rest = tok ++ rest := by simp [print_value]
        rw [hpv] at hn ⊢
        simp only [parseValueF]
        rw [alphanumeric1_of tok rest htok hreNoAl]
        dsimp only []
        rw [multispace0_of_noWsHead rest hreNoWs]
        cases rest with
        | nil => rfl
        | cons c cs =>
          dsimp only []
          simp only [sepOrEnd, Bool.or_eq_true, decide_eq_true_eq] at hre
          rcases hre with rfl | rfl
          · rw [if_neg (by decide)]
          · rw [if_neg (by decide)]
      | cons b bs =>
        have hpv : print_value ⟨tok, b :: bs⟩ ++ rest
            = tok ++ '{' :: (printBindings (b :: bs) ++ '}' :: rest) := by
          simp [print_value]
        rw [hpv] at hn ⊢
        simp only [identsBs, Bool.and_eq_true] at hich
        have htl := identOkB_length tok htok
        have hlen : (tok ++ '{' :: (printBindings (b :: bs) ++ '}' :: rest)).length
            = tok.length + 1 + (printBindings (b :: bs) ++ '}' :: rest).length := by
          simp only [List.length_append, List.length_cons]
          omega
        simp only [parseValueF]
        rw [alphanumeric1_of tok ('{' :: (printBindings (b :: bs) ++ '}' :: rest)) htok rfl]
        dsimp only []
        rw [multispace0_of_noWsHead ('{' :: (printBindings (b :: bs) ++ '}' :: rest)) rfl]
        dsimp only []
        rw [if_pos rfl]
        have hXw : noWsHead (printBindings (b :: bs) ++ '}' :: rest) = true :=
          noWsHead_append_printBindings b bs ('}' :: rest) hich.1
        rw [multispace0_of_noWsHead _ hXw]
        have hszch : sizeBs (b :: bs) < k := by
          have : sizeV ⟨tok, b :: bs⟩ = 1 + sizeBs (b :: bs) := by simp [sizeV]
          omega
        have hrec := (ih (sizeBs (b :: bs)) hszch).2.1 (b :: bs) rest m
          (Nat.le_refl _) (by simp) (by simp [identsBs, hich.1, hich.2]) hsv (by omega)
        rw [hrec]
        dsimp only []
        rw [if_pos rfl, multispace0_of_noWsHead rest hreNoWs]
  have HVs : ∀ vs rest n, sizeVs vs ≤ k → identsVs vs = true → shapeVs vs = true →
      (vs = [] → noAlnumHead rest = true) →
      (vs ≠ [] → braceOrEnd rest = true) →
      (printValues vs ++ rest).length + 2 ≤ n →
      parseValuesF n (printValues vs ++ rest) = some (rest, vs) := by
    intro vs rest n hsz hi hs h1 h2 hn
    cases vs with
    | nil =>
      rw [show printValues [] ++ rest = rest by simp [printValues]] at hn ⊢
      cases n with
      | zero => exact absurd hn (by omega)
      | succ m =>
        simp only [parseValuesF]
        rw [parseValueF_none m rest (h1 rfl)]
    | cons v vs2 =>
      simp only [identsVs, Bool.and_eq_true] at hi
      obtain ⟨hiv, hivs2⟩ := hi
      simp only [shapeVs, Bool.and_eq_true] at hs
      obtain ⟨hsv, hsvs2⟩ := hs
      have hwfv : wfV v = true := by simp [wfV, hiv, hsv]
      have hbre : braceOrEnd rest = true := h2 (by simp)
      cases n with
      | zero => exact absurd hn (by omega)
      | succ m =>
        cases vs2 with
        | nil =>
          rw [show printValues [v] ++ rest = print_value v ++ rest by simp [printValues]]
            at hn ⊢
          have hszv : sizeV v ≤ k := by
            have : sizeVs [v] = sizeV v := by simp [sizeVs]
            omega
          simp only [parseValuesF]
          rw [HV v rest m hszv hwfv (braceOrEnd_sepOrEnd rest hbre) (by omega)]
          dsimp only []
          rw [commaSep_none_of_braceOrEnd rest hbre]
        | cons v2 vs3 =>
          rw [show printValues (v :: v2 :: vs3) ++ rest
              = print_value v ++ ',' :: (printValues (v2 :: vs3) ++ rest) by
            simp [printValues]] at hn ⊢
          simp only [identsVs, Bool.and_eq_true] at hivs2
          have hszs : sizeV v ≤ k ∧ sizeVs (v2 :: vs3) < k := by
            have e1 : sizeVs (v :: v2 :: vs3) = sizeV v + sizeVs (v2 :: vs3) := by
              simp [sizeVs]
            have e2 : sizeVs (v2 :: vs3) = sizeV v2 + sizeVs vs3 := by simp [sizeVs]
            have p1 := sizeV_pos v
            have p2 := sizeV_pos v2
            omega
          have hpl := print_value_length v hiv
          have hlen : (print_value v ++ ',' :: (printValues (v2 :: vs3) ++ rest)).length
              = (print_value v).length + 1 + (printValues (v2 :: vs3) ++ rest).length := by
            simp only [List.length_append, List.length_cons]
            omega
          simp only [parseValuesF]
          rw [HV v (',' :: (printValues (v2 :: vs3) ++ rest)) m hszs.1 hwfv rfl (by omega)]
          dsimp only []
          have hYw : noWsHead (printValues (v2 :: vs3) ++ rest) = true :=
            noWsHead_append_printValues v2 vs3 rest hivs2.1
          have hcs : commaSep (',' :: (printValues (v2 :: vs3) ++ rest))
              = some (printValues (v2 :: vs3) ++ rest) := by
            simp [commaSep, multispace0_of_noWsHead _ hYw]
          rw [hcs]
          dsimp only []
          have hrec := (ih (sizeVs (v2 :: vs3)) hszs.2).2.2.2 (v2 :: vs3) rest m
            (Nat.le_refl _) (by simp [identsVs, hivs2.1, hivs2.2]) hsvs2
            (fun hemp => absurd hemp (by simp)) (fun _ => hbre) (by omega)
          rw [hrec]
          dsimp only []
          rw [if_neg (show ¬((v2 :: vs3).isEmpty = true) by simp)]
  exact ⟨HB, HBs, HV, HVs⟩

/-! ### Claim theorems on concrete inputs -/

/-- C2: evaluation of `parse_binding` at the failing input `"foo=x{a=b c=d}"`.
The claim (and the spec's grammar) says the block parses into two sibling
child bindings `a=b` and `c=d` with no remaining text; the code instead
stops after `a=b` (the value `b`'s trailing `multispace0` has consumed the
whitespace that `separated_list(multispace1, ...)` needs as separator), so
the `}` is not reached, the whole block backtracks, and the call returns the
binding `foo=x` with `"{a=b c=d}"` left unconsumed. -/
theorem C2_sibling_bindings_eval :
    parse_binding "foo=x{a=b c=d}".toList =
      some ("{a=b c=d}".toList, ⟨"foo".toList, [⟨"x".toList, []⟩]⟩) := rfl

/-- C3 counterexample: for the well-formed tree
`b = foo=x{a=b c=d}` (a value with two child bindings, each carrying one
value), printing, reparsing and printing again yields `"foo=x"`, not
`print_binding b = "foo=x{a=b c=d}"`; so the claimed idempotence fails for
arbitrary trees. -/
theorem C3_counterexample :
    (parse_binding (print_binding (⟨"foo".toList, [⟨"x".toList,
        [⟨"a".toList, [⟨"b".toList, []⟩]⟩,
         ⟨"c".toList, [⟨"d".toList, []⟩]⟩]⟩]⟩ : Binding))).map
        (fun p => print_binding p.2) = some "foo=x".toList ∧
    print_binding (⟨"foo".toList, [⟨"x".toList,
        [⟨"a".toList, [⟨"b".toList, []⟩]⟩,
         ⟨"c".toList, [⟨"d".toList, []⟩]⟩]⟩]⟩ : Binding)
      = "foo=x{a=b c=d}".toList ∧
    ("foo=x".toList : List Char) ≠ "foo=x{a=b c=d}".toList :=
  ⟨rfl, rfl, by decide⟩

/-- C4: evaluation of `parse_binding` at the failing input `"foo="`.  The
claim (and the spec's data model and grammar) requires one-or-more values per
binding; the code uses nom 5's `separated_list`, which allows zero elements,
so `"foo="` parses successfully into a binding with an empty values list and
no remaining text. -/
theorem C4_empty_values_eval :
    parse_binding "foo=".toList = some ([], ⟨"foo".toList, []⟩) := rfl

/-- C5 counterexample: `parse_binding "foo=bar{zoo=qat"` does not return an
error, contradicting the claim that an unterminated block is a parse
failure. -/
theorem C5_counterexample :
    (parse_binding "foo=bar\x7bzoo=qat".toList).isSome = true := rfl

/-- C5 (amended): on the unterminated-block input `"foo=bar{zoo=qat"`,
`parse_binding` succeeds with the binding `foo=bar`, leaving the entire
block text `"{zoo=qat"` as unconsumed remaining input (the failed optional
block is backtracked, not reported); only a caller's full-consumption check
can detect the malformed block. -/
theorem C5_unterminated_block :
    parse_binding "foo=bar\x7bzoo=qat".toList =
      some ("\x7bzoo=qat".toList, ⟨"foo".toList, [⟨"bar".toList, []⟩]⟩) := rfl

/-- C7: the three inputs `"foo=bar{zoo=qat}"`, `"foo=bar{ zoo=qat}"` and
`"foo=bar { zoo=qat }"` all parse successfully to the identical binding with
no remaining text, and that binding prints back to `"foo=bar{zoo=qat}"`. -/
theorem C7_whitespace_insensitivity :
    parse_binding "foo=bar{zoo=qat}".toList = parse_binding "foo=bar{ zoo=qat}".toList ∧
    parse_binding "foo=bar{zoo=qat}".toList = parse_binding "foo=bar { zoo=qat }".toList ∧
    parse_binding "foo=bar{zoo=qat}".toList =
      some ([], ⟨"foo".toList,
        [⟨"bar".toList, [⟨"zoo".toList, [⟨"qat".toList, []⟩]⟩]⟩]⟩) ∧
    print_binding ⟨"foo".toList,
        [⟨"bar".toList, [⟨"zoo".toList, [⟨"qat".toList, []⟩]⟩]⟩]⟩
      = "foo=bar{zoo=qat}".toList :=
  ⟨rfl, rfl, rfl, rfl⟩

/-- C8: an explicit empty block is equivalent to no block:
`parse_binding "foo=bar{}"` returns exactly what `parse_binding "foo=bar"`
returns (a value with empty children and nothing remaining), and
`print_value` emits no block syntax at all when `children` is empty (its
output is exactly the token). -/
theorem C8_empty_block :
    parse_binding "foo=bar{}".toList = parse_binding "foo=bar".toList ∧
    parse_binding "foo=bar{}".toList =
      some ([], ⟨"foo".toList, [⟨"bar".toList, []⟩]⟩) ∧
    ∀ v : Value, v.children = [] → print_value v = v.value := by
  refine ⟨rfl, rfl, ?_⟩
  intro v h
  cases v with
  | mk t ch =>
    cases ch with
    | nil => simp [print_value, Value.value]
    | cons b bs => simp [Value.children] at h

/-- Witness for C8: the universally quantified part applied at the concrete
childless value `bar`. -/
theorem C8_empty_block_witness :
    print_value ⟨"bar".toList, []⟩ = Value.value ⟨"bar".toList, []⟩ :=
  C8_empty_block.2.2 ⟨"bar".toList, []⟩ rfl

/-- C6: against the `Bool` schema, `decode` accepts exactly the tokens
`"true"` and `"false"` on a childless value, producing the corresponding
typed boolean, and returns a `DecodeError` for every other token (with any
children), never silently coercing an unrecognized token to `false`. -/
theorem C6_bool_decode :
    decode .bool ⟨"true".toList, []⟩ = .ok (.bool true) ∧
    decode .bool ⟨"false".toList, []⟩ = .ok (.bool false) ∧
    ∀ t ch, t ≠ "true".toList → t ≠ "false".toList →
      ∃ e, decode .bool ⟨t, ch⟩ = .error e := by
  refine ⟨by simp [decode], by simp [decode], ?_⟩
  intro t ch h1 h2
  cases ch with
  | nil =>
    exact ⟨.invalidBool t, by
      simp [decode, (show t ≠ ['t', 'r', 'u', 'e'] from h1),
        (show t ≠ ['f', 'a', 'l', 's', 'e'] from h2)]⟩
  | cons b bs => exact ⟨.leafWithBlock, by simp [decode]⟩

/-- Witness for C6: the unrecognized token `"maybe"` decodes to an error. -/
theorem C6_bool_decode_witness :
    ∃ e, decode Schema.bool ⟨"maybe".toList, []⟩ = .error e :=
  C6_bool_decode.2.2 "maybe".toList [] (by decide) (by decide)

/-- C10: `parse_binding` can fail only at its leading Identifier or at the
`=` sign: on every input consisting of a nonempty ASCII-alphanumeric run,
then `=`, then arbitrary text, it returns `Ok` (possibly with an empty
values list and unconsumed remaining text), never an error. -/
theorem C10_ok_after_ident_equals (nm rest : List Char) (hid : identOkB nm = true) :
    (parse_binding (nm ++ '=' :: rest)).isSome = true := by
  unfold parse_binding
  have hlen : (nm ++ '=' :: rest).length = nm.length + rest.length + 1 := by
    simp [List.length_append]
    omega
  simp only [parseBindingF]
  rw [alphanumeric1_of nm ('=' :: rest) hid
    (by simp only [noAlnumHead]; decide)]
  dsimp only []
  rw [if_pos rfl]
  have hn := identOkB_length nm hid
  cases hv : parseValuesF (nm ++ '=' :: rest).length rest with
  | none =>
    exact absurd hv (parseValuesF_ne_none (nm ++ '=' :: rest).length rest (by omega))
  | some p =>
    obtain ⟨r, vs⟩ := p
    simp

/-- Witness for C10: the input `"foo=!!"` (identifier, `=`, then junk)
parses successfully. -/
theorem C10_ok_after_ident_equals_witness :
    (parse_binding ("foo".toList ++ '=' :: "!!".toList)).isSome = true :=
  C10_ok_after_ident_equals "foo".toList "!!".toList (by decide)

/-- C1: for every Binding produced by a successful `parse_binding` call (on
any input, with any remaining text), parsing the printed form succeeds and
returns exactly that Binding with empty remaining text. -/
theorem C1_round_trip (s r : List Char) (b : Binding)
    (h : parse_binding s = some (r, b)) :
    parse_binding (print_binding b) = some ([], b) := by
  obtain ⟨hib, hsb, _⟩ := (image_wf (s.length + 1)).1 s r b h
  unfold parse_binding
  have hpp := (print_parse (sizeB b)).1 b [] ((print_binding b ++ []).length + 1)
    (Nat.le_refl _) (by simp [wfB, hib, hsb]) (fun _ => rfl) (fun _ => rfl) (Nat.le_refl _)
  simpa using hpp

/-- Witness for C1: applied to the Binding parsed from `"foo=bar"`. -/
theorem C1_round_trip_witness :
    parse_binding (print_binding ⟨"foo".toList, [⟨"bar".toList, []⟩]⟩)
      = some ([], ⟨"foo".toList, [⟨"bar".toList, []⟩]⟩) :=
  C1_round_trip "foo=bar".toList [] ⟨"foo".toList, [⟨"bar".toList, []⟩]⟩ rfl

/-- C3 (amended): printing, reparsing and printing again is the identity on
printed text for every Binding satisfying the parser-image invariant `wfB`
(all names and tokens nonempty ASCII-alphanumeric, and in every children
list every binding except the last has an empty values list); the original
claim over arbitrary trees fails, see the counterexample. -/
theorem C3_print_parse_print (b : Binding) (h : wfB b = true) :
    (parse_binding (print_binding b)).map (fun p => print_binding p.2)
      = some (print_binding b) := by
  have hp : parse_binding (print_binding b) = some ([], b) := by
    unfold parse_binding
    have hpp := (print_parse (sizeB b)).1 b [] ((print_binding b ++ []).length + 1)
      (Nat.le_refl _) h (fun _ => rfl) (fun _ => rfl) (Nat.le_refl _)
    simpa using hpp
  rw [hp]
  rfl

/-- Witness for C3 (amended): applied to the well-formed tree `foo=bar{zoo=qat}`. -/
theorem C3_print_parse_print_witness :
    (parse_binding (print_binding ⟨"foo".toList,
        [⟨"bar".toList, [⟨"zoo".toList, [⟨"qat".toList, []⟩]⟩]⟩]⟩)).map
      (fun p => print_binding p.2)
      = some (print_binding ⟨"foo".toList,
          [⟨"bar".toList, [⟨"zoo".toList, [⟨"qat".toList, []⟩]⟩]⟩]⟩) :=
  C3_print_parse_print ⟨"foo".toList,
    [⟨"bar".toList, [⟨"zoo".toList, [⟨"qat".toList, []⟩]⟩]⟩]⟩ (by rfl)

/-- C9: in every tree returned by a successful `parse_binding` or
`parse_value` call, every Binding name and every Value token is a nonempty
string of ASCII letters and digits, at every nesting depth (`identsB` /
`identsV` state exactly this, recursively). -/
theorem C9_identifiers_invariant :
    (∀ s r b, parse_binding s = some (r, b) → identsB b = true) ∧
    (∀ s r v, parse_value s = some (r, v) → identsV v = true) := by
  constructor
  · intro s r b h
    exact ((image_wf (s.length + 1)).1 s r b h).1
  · intro s r v h
    exact ((image_wf (s.length + 1)).2.2.1 s r v h).1

/-- Witness for C9: the tree parsed from `"foo=bar{zoo=qat}"` satisfies the
identifier invariant. -/
theorem C9_identifiers_invariant_witness :
    identsB ⟨"foo".toList, [⟨"bar".toList, [⟨"zoo".toList, [⟨"qat".toList, []⟩]⟩]⟩]⟩
      = true :=
  C9_identifiers_invariant.1 "foo=bar{zoo=qat}".toList []
    ⟨"foo".toList, [⟨"bar".toList, [⟨"zoo".toList, [⟨"qat".toList, []⟩]⟩]⟩]⟩ rfl

end Fuji
